import Mathlib

/-!
# Verification of `HashMap<K,V>` (src/hash-map/src/HashMap.h)

Shallow embedding of the separate-chaining hash table from
`src/hash-map/src/HashMap.h` and proofs of the specification claims.

Modelling conventions:
* `size_t` values (hashes, sizes, capacities) are idealised as `Nat`;
  none of the operations performs arithmetic that can overflow before
  memory is exhausted, so no `% 2^64` wrapping is modelled.
* The raw pointer chain `Node*` becomes a `List (Node K V)`; the owned
  bucket array `Node** buckets` becomes a `List (List (Node K V))`.
* The hash functor `std::hash<K>` is an arbitrary function `hashF : K → Nat`.
* `load_factor` is a `float` in the source, always equal to `0.75f` (it is
  initialised to `0.75f` and no member function ever assigns it), carried
  here as the rational it denotes.  `static_cast<size_t>(capacity *
  load_factor)` truncates a non-negative float towards zero, i.e. takes the
  floor; for the power-of-two capacities the table uses, `capacity * 0.75f`
  is exact in `float`, so the computed threshold is exactly `capacity * 3 / 4`
  in natural division (see `thresholdOf` and `thresholdOf_eq_floor`).
-/

namespace HashMapVerify

/-- Embeds `struct Node<K,V>` (HashMap.h lines 22-39): an immutable key, a
mutable value and the cached hash (`const size_t hash`).  The `next` pointer
becomes the list structure of the chains. -/
structure Node (K V : Type) where
  key : K
  value : V
  hash : Nat
deriving DecidableEq

/-- Embeds the data members of `class HashMap<K,V>` (HashMap.h lines 41-60):
the owned bucket array, the element count `sz`, `capacity`, `load_factor`
and the resize `threshold`. -/
structure HashMap (K V : Type) where
  buckets : List (List (Node K V))
  sz : Nat
  capacity : Nat
  load_factor : ℚ
  threshold : Nat
deriving DecidableEq

/-- The indexing scheme `index = h & (capacity - 1)`
(HashMap.h lines 164, 192, 223 and 109). -/
def bucketIndex (h cap : Nat) : Nat := h &&& (cap - 1)

/-- `static_cast<size_t>(capacity * load_factor)` (HashMap.h line 79) for the
only value `load_factor` ever holds, `0.75f`: the product `cap * 0.75f` is
exact in `float` for every power-of-two `cap` (three significand bits
suffice), and the cast truncates the non-negative result, so the computed
threshold is exactly `⌊cap * 3/4⌋ = cap * 3 / 4` in natural division.
`thresholdOf_eq_floor` below relates this to the floor over `ℚ`. -/
def thresholdOf (cap : Nat) : Nat := cap * 3 / 4

/-- Embeds `HashMap::init(cap)` (HashMap.h lines 75-85) together with the
value of `load_factor` the enclosing object carries: sets `capacity := cap`,
`sz := 0`, recomputes `threshold`, and allocates an all-null bucket array. -/
def initMap (K V : Type) (lf : ℚ) (cap : Nat) : HashMap K V :=
  { buckets := List.replicate cap []
    sz := 0
    capacity := cap
    load_factor := lf
    threshold := thresholdOf cap }

/-- The default-constructed table (HashMap.h lines 138-141): member
initialisers give `load_factor = 0.75f`, and the constructor calls
`init()` with the default `cap = 16`. -/
def mkHashMap (K V : Type) : HashMap K V := initMap K V (3/4) 16

variable {K V : Type}

/-- The bucket chain headed at `buckets[i]`.  In the source every read
`buckets[index]` has `index < capacity = ` array length; `getD` with
default `[]` keeps the model total. -/
def bucketAt (m : HashMap K V) (i : Nat) : List (Node K V) := m.buckets.getD i []

/-- The scan loop shared by `get`/`put`/`remove` (HashMap.h lines 166-172):
walk the chain, returning the value of the first node with
`e->hash == h && e->key == key`. -/
def findInChain [DecidableEq K] (h : Nat) (key : K) : List (Node K V) → Option V
  | [] => none
  | e :: rest =>
    if e.hash = h ∧ e.key = key then some e.value else findInChain h key rest

/-- Embeds `HashMap::get` (HashMap.h lines 161-175). -/
def get [DecidableEq K] (hashF : K → Nat) (m : HashMap K V) (key : K) : Option V :=
  findInChain (hashF key) key (bucketAt m (bucketIndex (hashF key) m.capacity))

/-- The scan-and-overwrite loop of `HashMap::put` (HashMap.h lines 194-201):
`some chain'` when a node with matching cached hash and key was found and its
value overwritten in place, `none` when the chain is exhausted. -/
def chainPut [DecidableEq K] (h : Nat) (key : K) (value : V) :
    List (Node K V) → Option (List (Node K V))
  | [] => none
  | e :: rest =>
    if e.hash = h ∧ e.key = key then some ({ e with value := value } :: rest)
    else (chainPut h key value rest).map (e :: ·)

/-- The inner relinking step of `HashMap::resize` (HashMap.h lines 109-112):
node `e` becomes the new head of bucket `e->hash & (capacity - 1)`. -/
def relink (cap : Nat) (bs : List (List (Node K V))) (e : Node K V) :
    List (List (Node K V)) :=
  bs.set (bucketIndex e.hash cap) (e :: bs.getD (bucketIndex e.hash cap) [])

/-- Embeds `HashMap::resize` (HashMap.h lines 96-118): `init(old_cap * 2)`
(fresh empty buckets, doubled capacity, recomputed threshold), `sz` restored,
then every node of every old chain — walked head to tail, buckets in order —
is relinked as the head of its new bucket, chosen by its *cached* hash. -/
def resize (m : HashMap K V) : HashMap K V :=
  { buckets := m.buckets.foldl (fun bs chain => chain.foldl (relink (m.capacity * 2)) bs)
      (List.replicate (m.capacity * 2) [])
    sz := m.sz
    capacity := m.capacity * 2
    load_factor := m.load_factor
    threshold := thresholdOf (m.capacity * 2) }

/-- The table state left behind if the allocation
`buckets = new Node<K, V>*[capacity]` (HashMap.h line 80) throws
`std::bad_alloc` while `init(old_cap * 2)` runs inside `resize`
(line 101): the member writes of lines 77-79 have already happened —
`capacity` doubled, `sz` zeroed, `threshold` recomputed — but `buckets`
still holds the old, smaller array with every entry in place, and the
exception propagates out of `resize` and `put` with no cleanup. -/
def resizeAllocFail (m : HashMap K V) : HashMap K V :=
  { buckets := m.buckets
    sz := 0
    capacity := m.capacity * 2
    load_factor := m.load_factor
    threshold := thresholdOf (m.capacity * 2) }

/-- The table state in `HashMap::put` (HashMap.h lines 203-204) right after a
new node was linked as the head of its bucket and `sz` was incremented — the
state on which the `++sz > threshold` check and, when it fires, `resize()`
run. -/
def putFreshState [DecidableEq K] (hashF : K → Nat) (m : HashMap K V) (key : K)
    (value : V) : HashMap K V :=
  { m with
    buckets := m.buckets.set (bucketIndex (hashF key) m.capacity)
      (Node.mk key value (hashF key) :: bucketAt m (bucketIndex (hashF key) m.capacity))
    sz := m.sz + 1 }

/-- Embeds `HashMap::put` (HashMap.h lines 189-208): overwrite in place if the
key is found (no size change, no resize check); otherwise link a new node as
the bucket head, increment `sz` (`threshold` is untouched by the insertion, so
`++sz > threshold` reads `m.sz + 1 > m.threshold`), and resize when the
incremented size exceeds the threshold. -/
def put [DecidableEq K] (hashF : K → Nat) (m : HashMap K V) (key : K) (value : V) :
    HashMap K V :=
  match chainPut (hashF key) key value (bucketAt m (bucketIndex (hashF key) m.capacity)) with
  | some chain2 => { m with buckets := m.buckets.set (bucketIndex (hashF key) m.capacity) chain2 }
  | none =>
    if m.threshold < m.sz + 1 then resize (putFreshState hashF m key value)
    else putFreshState hashF m key value

/-- A sequence of `put` calls, one per key-value pair, left to right (the
usage pattern of the spec's growth property and of `Test_HashMap.cpp`). -/
def putAll [DecidableEq K] (hashF : K → Nat) (m : HashMap K V) (l : List (K × V)) :
    HashMap K V :=
  l.foldl (fun m kv => put hashF m kv.1 kv.2) m

/-- The unlink loop of `HashMap::remove` (HashMap.h lines 225-237):
`some chain'` with the first matching node unlinked, or `none`. -/
def chainRemove [DecidableEq K] (h : Nat) (key : K) :
    List (Node K V) → Option (List (Node K V))
  | [] => none
  | e :: rest =>
    if e.hash = h ∧ e.key = key then some rest
    else (chainRemove h key rest).map (e :: ·)

/-- Embeds `HashMap::remove` (HashMap.h lines 220-239), returning the `bool`
result paired with the table after the call. -/
def remove [DecidableEq K] (hashF : K → Nat) (m : HashMap K V) (key : K) :
    Bool × HashMap K V :=
  match chainRemove (hashF key) key (bucketAt m (bucketIndex (hashF key) m.capacity)) with
  | some chain2 =>
    (true,
      { m with
        buckets := m.buckets.set (bucketIndex (hashF key) m.capacity) chain2
        sz := m.sz - 1 })
  | none => (false, m)

/-- Embeds `HashMap::clear` (HashMap.h lines 252-267): early-out when the
table is already empty (`sz == 0`; the `!buckets` null check cannot fire in
the model, where the array always exists), otherwise free every chain, null
every slot and zero `sz`.  `capacity`, `load_factor`, `threshold` untouched. -/
def clear (m : HashMap K V) : HashMap K V :=
  if m.sz = 0 then m
  else { m with buckets := List.replicate m.capacity [], sz := 0 }

/-- Embeds `HashMap::reset` (HashMap.h lines 281-303): free every node and
the bucket array, then `init()` back to the default capacity 16 with the
object's (never modified) `load_factor`. -/
def reset (m : HashMap K V) : HashMap K V := initMap K V m.load_factor 16

/-- Embeds `HashMap::size` (HashMap.h lines 305-308). -/
def size (m : HashMap K V) : Nat := m.sz

/-- Embeds `HashMap::empty` (HashMap.h lines 310-313). -/
def isEmptyMap (m : HashMap K V) : Bool := m.sz == 0

/-- A concrete pre-resize state (used to exercise the allocation-failure
path): the table over `K = V = Nat` with the identity hash after the twelve
inserts `(0,0) .. (11,11)` and with the thirteenth node `(12,12)` freshly
linked — exactly the state on which `put` invokes `resize`, since
`sz = 13 > threshold = 12`. -/
def preResizeExample : HashMap Nat Nat :=
  putFreshState id
    (putAll id (mkHashMap Nat Nat) ((List.range 12).map (fun n => (n, n)))) 12 12

/-! ## The representation invariant -/

/-- Every node stored anywhere in the table, bucket by bucket. -/
def allNodes (m : HashMap K V) : List (Node K V) := m.buckets.flatten

/-- The identity `get`/`put`/`remove` match on: cached hash plus key. -/
def nsig (e : Node K V) : Nat × K := (e.hash, e.key)

/-- The representation invariant of every reachable table (spec §3):
power-of-two capacity, bucket array of exactly `capacity` slots,
`load_factor` equal to the only value the source ever stores in it,
`threshold` as recomputed by `init`, every node in the bucket selected by
its cached hash, no two stored nodes sharing cached hash and key, and `sz`
in sync with the number of stored nodes. -/
structure WF (m : HashMap K V) : Prop where
  cap_pow : ∃ n, m.capacity = 2 ^ n
  lf_eq : m.load_factor = 3/4
  len_eq : m.buckets.length = m.capacity
  thr_eq : m.threshold = thresholdOf m.capacity
  placed : ∀ i, ∀ e ∈ bucketAt m i, bucketIndex e.hash m.capacity = i
  sig_nodup : ((allNodes m).map nsig).Nodup
  sz_eq : m.sz = (allNodes m).length

/-- The two shape invariants named by the spec (§3): power-of-two capacity
and `threshold == floor(capacity * load_factor)`. -/
def GoodShape (m : HashMap K V) : Prop :=
  (∃ n, m.capacity = 2 ^ n) ∧
  (m.threshold : ℤ) = Int.floor ((m.capacity : ℚ) * m.load_factor)


/-! ## List helpers -/

theorem getD_replicate_nil {α : Type _} : ∀ (n i : Nat),
    (List.replicate n ([] : List α)).getD i [] = []
  | 0, _ => rfl
  | _ + 1, 0 => rfl
  | n + 1, i + 1 => getD_replicate_nil n i

theorem getD_of_length_le {α : Type _} :
    ∀ (l : List α) (i : Nat), l.length ≤ i → ∀ d : α, l.getD i d = d
  | [], _, _, _ => rfl
  | _ :: _, 0, h, _ => absurd h (by simp)
  | _ :: l, i + 1, h, d => getD_of_length_le l i (by simpa using h) d

theorem getD_set_self {α : Type _} :
    ∀ (l : List α) (i : Nat), i < l.length → ∀ (x d : α), (l.set i x).getD i d = x
  | _ :: _, 0, _, _, _ => rfl
  | _ :: l, i + 1, h, x, d => getD_set_self l i (by simpa using h) x d

theorem getD_set_ne {α : Type _} :
    ∀ (l : List α) (i j : Nat), i ≠ j → ∀ (x d : α), (l.set i x).getD j d = l.getD j d
  | [], _, _, _, _, _ => rfl
  | _ :: _, 0, 0, h, _, _ => absurd rfl h
  | _ :: _, 0, _ + 1, _, _, _ => rfl
  | _ :: _, _ + 1, 0, _, _, _ => rfl
  | _ :: l, i + 1, j + 1, h, x, d => getD_set_ne l i j (fun hh => h (by rw [hh])) x d

theorem flatten_decomp {α : Type _} : ∀ (L : List (List α)) (i : Nat), i < L.length →
    L.flatten = (L.take i).flatten ++ (L.getD i [] ++ (L.drop (i + 1)).flatten)
  | _ :: _, 0, _ => by simp
  | c :: L, i + 1, h => by
    simp only [List.flatten_cons, List.take_succ_cons, List.getD_cons_succ,
      List.drop_succ_cons]
    rw [flatten_decomp L i (by simpa using h), List.append_assoc]

theorem flatten_set_decomp {α : Type _} :
    ∀ (L : List (List α)) (i : Nat), i < L.length → ∀ x : List α,
    (L.set i x).flatten = (L.take i).flatten ++ (x ++ (L.drop (i + 1)).flatten)
  | _ :: _, 0, _, x => by simp
  | c :: L, i + 1, h, x => by
    simp only [List.set_cons_succ, List.flatten_cons, List.take_succ_cons,
      List.drop_succ_cons]
    rw [flatten_set_decomp L i (by simpa using h) x, List.append_assoc]

theorem flatten_set_cons_perm {α : Type _} (L : List (List α)) (i : Nat)
    (h : i < L.length) (a : α) :
    ((L.set i (a :: L.getD i [])).flatten).Perm (a :: L.flatten) := by
  rw [flatten_set_decomp L i h, flatten_decomp L i h, List.cons_append]
  exact List.perm_middle

theorem flatten_set_sublist {α : Type _} (L : List (List α)) (i : Nat)
    (h : i < L.length) {x : List α} (hx : x.Sublist (L.getD i [])) :
    ((L.set i x).flatten).Sublist L.flatten := by
  rw [flatten_set_decomp L i h, flatten_decomp L i h]
  exact (hx.append (List.Sublist.refl _)).append_left _

/-! ## Arithmetic facts about the indexing and threshold schemes -/

/-- For a power-of-two capacity the mask `h & (cap - 1)` is a valid index:
this is the fact the source's comment block (HashMap.h lines 15-18) appeals
to. -/
theorem bucketIndex_lt {cap : Nat} (hc : ∃ n, cap = 2 ^ n) (h : Nat) :
    bucketIndex h cap < cap := by
  obtain ⟨n, rfl⟩ := hc
  show h &&& (2 ^ n - 1) < 2 ^ n
  exact Nat.and_lt_two_pow h (Nat.sub_lt (Nat.two_pow_pos n) Nat.one_pos)

/-- The modelled threshold is exactly `⌊capacity * load_factor⌋` for the
load factor `3/4` the table carries. -/
theorem thresholdOf_eq_floor (cap : Nat) :
    ((thresholdOf cap : Nat) : ℤ) = Int.floor ((cap : ℚ) * (3 / 4)) := by
  have h4 : (cap : ℚ) * (3 / 4) = (((cap * 3 : ℕ) : ℤ) : ℚ) / ((4 : ℕ) : ℚ) := by
    push_cast
    ring
  rw [h4, Rat.floor_intCast_div_natCast]
  exact Int.natCast_div (cap * 3) 4


/-! ## Chain-scan lemmas

All three public operations walk one bucket chain testing
`e->hash == h && e->key == key`; these lemmas characterise the three loop
variants. -/

section ChainLemmas

variable [DecidableEq K] {h h2 : Nat} {k k2 : K} {v : V}

theorem findInChain_eq_none_iff {c : List (Node K V)} :
    findInChain h k c = none ↔ ∀ e ∈ c, ¬(e.hash = h ∧ e.key = k) := by
  induction c with
  | nil => simp [findInChain]
  | cons e rest ih =>
    by_cases he : e.hash = h ∧ e.key = k
    · simp only [findInChain, if_pos he]
      constructor
      · intro hc; exact Option.noConfusion hc
      · intro hall; exact absurd he (hall e (by simp))
    · simp only [findInChain, if_neg he, ih]
      constructor
      · intro hall f hf
        rcases List.mem_cons.1 hf with rfl | hf2
        · exact he
        · exact hall f hf2
      · intro hall f hf
        exact hall f (List.mem_cons_of_mem _ hf)

theorem findInChain_eq_some_mem {c : List (Node K V)}
    (hf : findInChain h k c = some v) :
    ∃ e ∈ c, e.hash = h ∧ e.key = k ∧ e.value = v := by
  induction c with
  | nil => exact Option.noConfusion hf
  | cons e rest ih =>
    by_cases he : e.hash = h ∧ e.key = k
    · rw [show findInChain h k (e :: rest) = some e.value by
        simp only [findInChain, if_pos he]] at hf
      exact ⟨e, by simp, he.1, he.2, Option.some.inj hf⟩
    · rw [show findInChain h k (e :: rest) = findInChain h k rest by
        simp only [findInChain, if_neg he]] at hf
      obtain ⟨f, hfm, hfp⟩ := ih hf
      exact ⟨f, List.mem_cons_of_mem _ hfm, hfp⟩

theorem findInChain_eq_some_of_mem {c : List (Node K V)} {e : Node K V}
    (hnd : (c.map nsig).Nodup) (he : e ∈ c) (hh : e.hash = h) (hk : e.key = k) :
    findInChain h k c = some e.value := by
  induction c with
  | nil => cases he
  | cons f rest ih =>
    rcases List.mem_cons.1 he with rfl | he2
    · simp only [findInChain, if_pos (And.intro hh hk)]
    · by_cases hf : f.hash = h ∧ f.key = k
      · exfalso
        have hmem : nsig e ∈ rest.map nsig := List.mem_map_of_mem nsig he2
        have hfe : nsig f = nsig e := by
          simp only [nsig]
          rw [hf.1, hf.2, hh, hk]
        rw [List.map_cons] at hnd
        exact (List.nodup_cons.1 hnd).1 (hfe ▸ hmem)
      · simp only [findInChain, if_neg hf]
        rw [List.map_cons] at hnd
        exact ih (List.nodup_cons.1 hnd).2 he2

theorem chainPut_eq_none_iff {c : List (Node K V)} :
    chainPut h k v c = none ↔ findInChain h k c = none := by
  induction c with
  | nil => simp [chainPut, findInChain]
  | cons e rest ih =>
    by_cases he : e.hash = h ∧ e.key = k
    · simp [chainPut, findInChain, if_pos he]
    · simp only [chainPut, findInChain, if_neg he, Option.map_eq_none', ih]

theorem chainPut_some_find :
    ∀ {c c2 : List (Node K V)}, chainPut h k v c = some c2 →
    findInChain h k c2 = some v := by
  intro c
  induction c with
  | nil => intro c2 hcp; exact Option.noConfusion hcp
  | cons e rest ih =>
    intro c2 hcp
    by_cases he : e.hash = h ∧ e.key = k
    · simp only [chainPut, if_pos he] at hcp
      rw [← Option.some.inj hcp]
      simp only [findInChain, if_pos he]
    · simp only [chainPut, if_neg he] at hcp
      rcases hmap : chainPut h k v rest with _ | c3
      · rw [hmap] at hcp; exact Option.noConfusion hcp
      · rw [hmap] at hcp
        simp only [Option.map_some'] at hcp
        rw [← Option.some.inj hcp]
        simp only [findInChain, if_neg he]
        exact ih hmap

theorem chainPut_some_find_ne (hne : k2 ≠ k) :
    ∀ {c c2 : List (Node K V)}, chainPut h k v c = some c2 →
    findInChain h2 k2 c2 = findInChain h2 k2 c := by
  intro c
  induction c with
  | nil => intro c2 hcp; exact Option.noConfusion hcp
  | cons e rest ih =>
    intro c2 hcp
    by_cases he : e.hash = h ∧ e.key = k
    · simp only [chainPut, if_pos he] at hcp
      rw [← Option.some.inj hcp]
      have hq : ¬(e.hash = h2 ∧ e.key = k2) := fun hc => hne (hc.2 ▸ he.2 ▸ rfl)
      simp only [findInChain, if_neg hq]
    · simp only [chainPut, if_neg he] at hcp
      rcases hmap : chainPut h k v rest with _ | c3
      · rw [hmap] at hcp; exact Option.noConfusion hcp
      · rw [hmap] at hcp
        simp only [Option.map_some'] at hcp
        rw [← Option.some.inj hcp]
        by_cases hq : e.hash = h2 ∧ e.key = k2
        · simp only [findInChain, if_pos hq]
        · simp only [findInChain, if_neg hq]
          exact ih hmap

theorem chainPut_some_map_nsig :
    ∀ {c c2 : List (Node K V)}, chainPut h k v c = some c2 →
    c2.map nsig = c.map nsig := by
  intro c
  induction c with
  | nil => intro c2 hcp; exact Option.noConfusion hcp
  | cons e rest ih =>
    intro c2 hcp
    by_cases he : e.hash = h ∧ e.key = k
    · simp only [chainPut, if_pos he] at hcp
      rw [← Option.some.inj hcp]
      rfl
    · simp only [chainPut, if_neg he] at hcp
      rcases hmap : chainPut h k v rest with _ | c3
      · rw [hmap] at hcp; exact Option.noConfusion hcp
      · rw [hmap] at hcp
        simp only [Option.map_some'] at hcp
        rw [← Option.some.inj hcp]
        simp only [List.map_cons, ih hmap]

theorem chainRemove_eq_none_iff {c : List (Node K V)} :
    chainRemove h k c = none ↔ findInChain h k c = none := by
  induction c with
  | nil => simp [chainRemove, findInChain]
  | cons e rest ih =>
    by_cases he : e.hash = h ∧ e.key = k
    · simp [chainRemove, findInChain, if_pos he]
    · simp only [chainRemove, findInChain, if_neg he, Option.map_eq_none', ih]

theorem chainRemove_some_sublist :
    ∀ {c c2 : List (Node K V)}, chainRemove h k c = some c2 → c2.Sublist c := by
  intro c
  induction c with
  | nil => intro c2 hcr; exact Option.noConfusion hcr
  | cons e rest ih =>
    intro c2 hcr
    by_cases he : e.hash = h ∧ e.key = k
    · simp only [chainRemove, if_pos he] at hcr
      rw [← Option.some.inj hcr]
      exact List.sublist_cons_self e rest
    · simp only [chainRemove, if_neg he] at hcr
      rcases hmap : chainRemove h k rest with _ | c3
      · rw [hmap] at hcr; exact Option.noConfusion hcr
      · rw [hmap] at hcr
        simp only [Option.map_some'] at hcr
        rw [← Option.some.inj hcr]
        exact (ih hmap).cons₂ e

theorem chainRemove_some_length :
    ∀ {c c2 : List (Node K V)}, chainRemove h k c = some c2 →
    c2.length + 1 = c.length := by
  intro c
  induction c with
  | nil => intro c2 hcr; exact Option.noConfusion hcr
  | cons e rest ih =>
    intro c2 hcr
    by_cases he : e.hash = h ∧ e.key = k
    · simp only [chainRemove, if_pos he] at hcr
      rw [← Option.some.inj hcr]
      rfl
    · simp only [chainRemove, if_neg he] at hcr
      rcases hmap : chainRemove h k rest with _ | c3
      · rw [hmap] at hcr; exact Option.noConfusion hcr
      · rw [hmap] at hcr
        simp only [Option.map_some'] at hcr
        rw [← Option.some.inj hcr]
        simp only [List.length_cons, ih hmap]

theorem chainRemove_some_find {c c2 : List (Node K V)}
    (hnd : (c.map nsig).Nodup) (hcr : chainRemove h k c = some c2) :
    findInChain h k c2 = none := by
  induction c generalizing c2 with
  | nil => exact Option.noConfusion hcr
  | cons e rest ih =>
    rw [List.map_cons] at hnd
    by_cases he : e.hash = h ∧ e.key = k
    · simp only [chainRemove, if_pos he] at hcr
      rw [← Option.some.inj hcr]
      rw [findInChain_eq_none_iff]
      intro f hf hfp
      have : nsig e = nsig f := by
        simp only [nsig]
        rw [he.1, he.2, hfp.1, hfp.2]
      exact (List.nodup_cons.1 hnd).1 (this ▸ List.mem_map_of_mem nsig hf)
    · simp only [chainRemove, if_neg he] at hcr
      rcases hmap : chainRemove h k rest with _ | c3
      · rw [hmap] at hcr; exact Option.noConfusion hcr
      · rw [hmap] at hcr
        simp only [Option.map_some'] at hcr
        rw [← Option.some.inj hcr]
        simp only [findInChain, if_neg he]
        exact ih (List.nodup_cons.1 hnd).2 hmap

theorem chainRemove_some_find_ne (hne : k2 ≠ k) :
    ∀ {c c2 : List (Node K V)}, chainRemove h k c = some c2 →
    findInChain h2 k2 c2 = findInChain h2 k2 c := by
  intro c
  induction c with
  | nil => intro c2 hcr; exact Option.noConfusion hcr
  | cons e rest ih =>
    intro c2 hcr
    by_cases he : e.hash = h ∧ e.key = k
    · simp only [chainRemove, if_pos he] at hcr
      rw [← Option.some.inj hcr]
      have hq : ¬(e.hash = h2 ∧ e.key = k2) := fun hc => hne (hc.2 ▸ he.2 ▸ rfl)
      simp only [findInChain, if_neg hq]
    · simp only [chainRemove, if_neg he] at hcr
      rcases hmap : chainRemove h k rest with _ | c3
      · rw [hmap] at hcr; exact Option.noConfusion hcr
      · rw [hmap] at hcr
        simp only [Option.map_some'] at hcr
        rw [← Option.some.inj hcr]
        by_cases hq : e.hash = h2 ∧ e.key = k2
        · simp only [findInChain, if_pos hq]
        · simp only [findInChain, if_neg hq]
          exact ih hmap

end ChainLemmas


/-! ## Locating nodes in the table -/

theorem getD_eq_get_of_lt {α : Type _} :
    ∀ (l : List α) (i : Nat) (h : i < l.length) (d : α), l.getD i d = l.get ⟨i, h⟩
  | _ :: _, 0, _, _ => rfl
  | _ :: l, i + 1, h, d => getD_eq_get_of_lt l i (by simpa using h) d

theorem mem_bucketAt_allNodes {m : HashMap K V} {i : Nat} {e : Node K V}
    (he : e ∈ bucketAt m i) : e ∈ allNodes m := by
  rcases Nat.lt_or_ge i m.buckets.length with hi | hi
  · rw [allNodes, List.mem_flatten]
    refine ⟨bucketAt m i, ?_, he⟩
    rw [bucketAt, getD_eq_get_of_lt m.buckets i hi]
    exact List.get_mem _ _ _
  · rw [bucketAt, getD_of_length_le m.buckets i hi] at he
    cases he

theorem mem_allNodes_split {m : HashMap K V} {e : Node K V} (he : e ∈ allNodes m) :
    ∃ i, i < m.buckets.length ∧ e ∈ bucketAt m i := by
  rw [allNodes, List.mem_flatten] at he
  obtain ⟨c, hc, hec⟩ := he
  obtain ⟨n, hn, hcn⟩ := List.mem_iff_getElem.1 hc
  refine ⟨n, hn, ?_⟩
  rw [bucketAt, getD_eq_get_of_lt m.buckets n hn, List.get_eq_getElem, hcn]
  exact hec

theorem bucketAt_sublist {m : HashMap K V} (i : Nat) :
    (bucketAt m i).Sublist (allNodes m) := by
  rcases Nat.lt_or_ge i m.buckets.length with hi | hi
  · rw [bucketAt, getD_eq_get_of_lt m.buckets i hi]
    exact List.sublist_flatten_of_mem (List.get_mem _ _ _)
  · rw [bucketAt, getD_of_length_le m.buckets i hi]
    exact List.nil_sublist _

/-- A node that matches a query lives in the bucket its cached hash selects:
the `placed` invariant read through `mem_allNodes_split`. -/
theorem mem_bucket_of_match {m : HashMap K V} (hwf : WF m) {e : Node K V}
    (he : e ∈ allNodes m) : e ∈ bucketAt m (bucketIndex e.hash m.capacity) := by
  obtain ⟨i, _, hei⟩ := mem_allNodes_split he
  rw [hwf.placed i e hei]
  exact hei

theorem bucketAt_nsig_nodup {m : HashMap K V} (hwf : WF m) (i : Nat) :
    ((bucketAt m i).map nsig).Nodup :=
  ((bucketAt_sublist i).map nsig).nodup hwf.sig_nodup

theorem bucketIndex_lt_len {m : HashMap K V} (hwf : WF m) (h : Nat) :
    bucketIndex h m.capacity < m.buckets.length := by
  rw [hwf.len_eq]
  exact bucketIndex_lt hwf.cap_pow h

/-! ## `get` characterised against the stored nodes -/

theorem get_eq_some_iff [DecidableEq K] (hashF : K → Nat) {m : HashMap K V}
    (hwf : WF m) {k : K} {v : V} :
    get hashF m k = some v ↔
      ∃ e ∈ allNodes m, e.hash = hashF k ∧ e.key = k ∧ e.value = v := by
  constructor
  · intro hg
    rw [get] at hg
    obtain ⟨e, hem, hp⟩ := findInChain_eq_some_mem hg
    exact ⟨e, mem_bucketAt_allNodes hem, hp⟩
  · rintro ⟨e, hem, hh, hk, hv⟩
    rw [get, ← hv]
    have hloc := mem_bucket_of_match hwf hem
    rw [hh] at hloc
    exact findInChain_eq_some_of_mem (bucketAt_nsig_nodup hwf _) hloc hh hk

theorem get_eq_none_iff [DecidableEq K] (hashF : K → Nat) {m : HashMap K V}
    (hwf : WF m) {k : K} :
    get hashF m k = none ↔ ∀ e ∈ allNodes m, ¬(e.hash = hashF k ∧ e.key = k) := by
  rw [get, findInChain_eq_none_iff]
  constructor
  · intro hb e hem hp
    have hloc := mem_bucket_of_match hwf hem
    rw [hp.1] at hloc
    exact hb e hloc hp
  · intro ha e hem
    exact ha e (mem_bucketAt_allNodes hem)


/-! ## The `resize` migration loop -/

theorem flatten_replicate_nil {α : Type _} :
    ∀ n : Nat, (List.replicate n ([] : List α)).flatten = []
  | 0 => rfl
  | n + 1 => by
    rw [List.replicate_succ, List.flatten_cons, flatten_replicate_nil n, List.nil_append]

theorem foldl_relink_length {cap : Nat} :
    ∀ (c : List (Node K V)) (bs : List (List (Node K V))),
    (c.foldl (relink cap) bs).length = bs.length
  | [], _ => rfl
  | e :: c, bs => by
    rw [List.foldl_cons, foldl_relink_length c (relink cap bs e)]
    simp [relink]

theorem foldl2_relink_length {cap : Nat} :
    ∀ (L : List (List (Node K V))) (bs : List (List (Node K V))),
    (L.foldl (fun acc chain => chain.foldl (relink cap) acc) bs).length = bs.length
  | [], _ => rfl
  | c :: L, bs => by
    rw [List.foldl_cons, foldl2_relink_length L (c.foldl (relink cap) bs),
      foldl_relink_length c bs]

theorem relink_flatten_perm {cap : Nat} {bs : List (List (Node K V))} (e : Node K V)
    (hlen : bucketIndex e.hash cap < bs.length) :
    ((relink cap bs e).flatten).Perm (e :: bs.flatten) := by
  rw [relink]
  exact flatten_set_cons_perm bs _ hlen e

theorem foldl_relink_flatten_perm {cap : Nat} (hcap : ∀ h, bucketIndex h cap < cap) :
    ∀ (c : List (Node K V)) (bs : List (List (Node K V))), bs.length = cap →
    ((c.foldl (relink cap) bs).flatten).Perm (c ++ bs.flatten)
  | [], bs, _ => by simp
  | e :: c, bs, hlen => by
    rw [List.foldl_cons]
    have h1 : (relink cap bs e).length = cap := by simp [relink, hlen]
    have h2 := foldl_relink_flatten_perm hcap c (relink cap bs e) h1
    have h3 : ((relink cap bs e).flatten).Perm (e :: bs.flatten) :=
      relink_flatten_perm e (by rw [hlen]; exact hcap e.hash)
    exact h2.trans ((h3.append_left c).trans List.perm_middle)

theorem foldl2_relink_flatten_perm {cap : Nat} (hcap : ∀ h, bucketIndex h cap < cap) :
    ∀ (L bs : List (List (Node K V))), bs.length = cap →
    ((L.foldl (fun acc chain => chain.foldl (relink cap) acc) bs).flatten).Perm
      (L.flatten ++ bs.flatten)
  | [], bs, _ => by simp
  | c :: L, bs, hlen => by
    rw [List.foldl_cons]
    have h1 : (c.foldl (relink cap) bs).length = cap := by
      rw [foldl_relink_length]; exact hlen
    have h2 := foldl2_relink_flatten_perm hcap L (c.foldl (relink cap) bs) h1
    have h3 := foldl_relink_flatten_perm hcap c bs hlen
    refine (h2.trans ((h3.append_left L.flatten).trans ?_))
    rw [List.flatten_cons, List.append_assoc]
    exact List.perm_append_comm_assoc L.flatten c bs.flatten

theorem relink_getD_cases {cap : Nat} {bs : List (List (Node K V))} {e : Node K V}
    {j : Nat} (hlen : bucketIndex e.hash cap < bs.length) {f : Node K V}
    (hf : f ∈ (relink cap bs e).getD j []) :
    (f = e ∧ j = bucketIndex e.hash cap) ∨ f ∈ bs.getD j [] := by
  by_cases hj : bucketIndex e.hash cap = j
  · subst hj
    rw [relink, getD_set_self bs _ hlen] at hf
    rcases List.mem_cons.1 hf with rfl | hf2
    · exact Or.inl ⟨rfl, rfl⟩
    · exact Or.inr hf2
  · rw [relink, getD_set_ne bs _ j hj] at hf
    exact Or.inr hf

theorem foldl_relink_placed {cap : Nat} (hcap : ∀ h, bucketIndex h cap < cap) :
    ∀ (c : List (Node K V)) (bs : List (List (Node K V))), bs.length = cap →
    (∀ j, ∀ f ∈ bs.getD j [], bucketIndex f.hash cap = j) →
    ∀ j, ∀ f ∈ (c.foldl (relink cap) bs).getD j [], bucketIndex f.hash cap = j
  | [], _, _, hpl => hpl
  | e :: c, bs, hlen, hpl => by
    rw [List.foldl_cons]
    refine foldl_relink_placed hcap c (relink cap bs e) (by simp [relink, hlen]) ?_
    intro j f hf
    rcases relink_getD_cases (by rw [hlen]; exact hcap e.hash) hf with ⟨rfl, rfl⟩ | hf2
    · rfl
    · exact hpl j f hf2

theorem foldl2_relink_placed {cap : Nat} (hcap : ∀ h, bucketIndex h cap < cap) :
    ∀ (L bs : List (List (Node K V))), bs.length = cap →
    (∀ j, ∀ f ∈ bs.getD j [], bucketIndex f.hash cap = j) →
    ∀ j, ∀ f ∈ (L.foldl (fun acc chain => chain.foldl (relink cap) acc) bs).getD j [],
      bucketIndex f.hash cap = j
  | [], _, _, hpl => hpl
  | c :: L, bs, hlen, hpl => by
    rw [List.foldl_cons]
    refine foldl2_relink_placed hcap L (c.foldl (relink cap) bs)
      (by rw [foldl_relink_length]; exact hlen) ?_
    exact foldl_relink_placed hcap c bs hlen hpl

theorem capTwo_lt {m : HashMap K V} (hwf : WF m) :
    ∀ h, bucketIndex h (m.capacity * 2) < m.capacity * 2 := by
  intro h
  obtain ⟨n, hn⟩ := hwf.cap_pow
  refine bucketIndex_lt ⟨n + 1, ?_⟩ h
  rw [hn, Nat.pow_succ]

theorem allNodes_resize_perm {m : HashMap K V} (hwf : WF m) :
    (allNodes (resize m)).Perm (allNodes m) := by
  have h := foldl2_relink_flatten_perm (capTwo_lt hwf) m.buckets
    (List.replicate (m.capacity * 2) []) (List.length_replicate _ _)
  rw [flatten_replicate_nil, List.append_nil] at h
  exact h

theorem resize_placed {m : HashMap K V} (hwf : WF m) :
    ∀ j, ∀ f ∈ bucketAt (resize m) j, bucketIndex f.hash (m.capacity * 2) = j := by
  intro j f hf
  have base : ∀ j, ∀ f ∈ (List.replicate (m.capacity * 2)
      ([] : List (Node K V))).getD j [], bucketIndex f.hash (m.capacity * 2) = j := by
    intro j f hf
    rw [getD_replicate_nil] at hf
    cases hf
  exact foldl2_relink_placed (capTwo_lt hwf) m.buckets _
    (List.length_replicate _ _) base j f hf

theorem resize_buckets_length (m : HashMap K V) :
    (resize m).buckets.length = m.capacity * 2 := by
  show (m.buckets.foldl (fun bs chain => chain.foldl (relink (m.capacity * 2)) bs)
    (List.replicate (m.capacity * 2) [])).length = m.capacity * 2
  rw [foldl2_relink_length, List.length_replicate]

theorem wf_resize {m : HashMap K V} (hwf : WF m) : WF (resize m) := by
  obtain ⟨n, hn⟩ := hwf.cap_pow
  have hperm := allNodes_resize_perm hwf
  refine ⟨⟨n + 1, ?_⟩, ?_, ?_, rfl, resize_placed hwf, ?_, ?_⟩
  · show m.capacity * 2 = 2 ^ (n + 1)
    rw [hn, Nat.pow_succ]
  · exact hwf.lf_eq
  · exact resize_buckets_length m
  · exact ((hperm.map nsig).symm.nodup hwf.sig_nodup)
  · show m.sz = (allNodes (resize m)).length
    rw [hperm.length_eq]
    exact hwf.sz_eq

theorem get_resize [DecidableEq K] (hashF : K → Nat) {m : HashMap K V}
    (hwf : WF m) (k : K) :
    get hashF (resize m) k = get hashF m k := by
  have hwf2 := wf_resize hwf
  rcases hg : get hashF m k with _ | v
  · rw [get_eq_none_iff hashF hwf] at hg
    rw [get_eq_none_iff hashF hwf2]
    intro e hem
    exact hg e ((allNodes_resize_perm hwf).mem_iff.1 hem)
  · rw [get_eq_some_iff hashF hwf] at hg
    obtain ⟨e, hem, hp⟩ := hg
    rw [get_eq_some_iff hashF hwf2]
    exact ⟨e, (allNodes_resize_perm hwf).mem_iff.2 hem, hp⟩


/-! ## `put` -/

theorem put_eq_found [DecidableEq K] (hashF : K → Nat) (m : HashMap K V) (k : K)
    (v : V) {c2 : List (Node K V)}
    (hcp : chainPut (hashF k) k v (bucketAt m (bucketIndex (hashF k) m.capacity)) =
      some c2) :
    put hashF m k v =
      { m with buckets := m.buckets.set (bucketIndex (hashF k) m.capacity) c2 } := by
  unfold put
  rw [hcp]

theorem put_eq_fresh [DecidableEq K] (hashF : K → Nat) (m : HashMap K V) (k : K)
    (v : V)
    (hcp : chainPut (hashF k) k v (bucketAt m (bucketIndex (hashF k) m.capacity)) =
      none) :
    put hashF m k v =
      if m.threshold < m.sz + 1 then resize (putFreshState hashF m k v)
      else putFreshState hashF m k v := by
  unfold put
  rw [hcp]

theorem chainPut_none_get [DecidableEq K] (hashF : K → Nat) {m : HashMap K V}
    {k : K} {v : V}
    (hcp : chainPut (hashF k) k v (bucketAt m (bucketIndex (hashF k) m.capacity)) =
      none) :
    get hashF m k = none := by
  rw [get]
  exact chainPut_eq_none_iff.1 hcp

theorem wf_putFreshState [DecidableEq K] (hashF : K → Nat) {m : HashMap K V}
    (hwf : WF m) {k : K} {v : V}
    (hcp : chainPut (hashF k) k v (bucketAt m (bucketIndex (hashF k) m.capacity)) =
      none) :
    WF (putFreshState hashF m k v) := by
  have hlen := bucketIndex_lt_len hwf (hashF k)
  have habsent := (get_eq_none_iff hashF hwf).1 (chainPut_none_get hashF hcp)
  have hperm : (allNodes (putFreshState hashF m k v)).Perm
      (Node.mk k v (hashF k) :: allNodes m) :=
    flatten_set_cons_perm m.buckets (bucketIndex (hashF k) m.capacity) hlen _
  refine ⟨hwf.cap_pow, hwf.lf_eq, ?_, hwf.thr_eq, ?_, ?_, ?_⟩
  · show (m.buckets.set (bucketIndex (hashF k) m.capacity) _).length = m.capacity
    rw [List.length_set]
    exact hwf.len_eq
  · intro j f hf
    simp only [putFreshState, bucketAt] at hf
    by_cases hij : bucketIndex (hashF k) m.capacity = j
    · subst hij
      rw [getD_set_self _ _ hlen] at hf
      rcases List.mem_cons.1 hf with rfl | hf2
      · rfl
      · exact hwf.placed _ f hf2
    · rw [getD_set_ne _ _ _ hij] at hf
      exact hwf.placed j f hf
  · refine ((hperm.map nsig).symm.nodup ?_)
    rw [List.map_cons, List.nodup_cons]
    refine ⟨?_, hwf.sig_nodup⟩
    intro hmem
    obtain ⟨e, hem, he⟩ := List.mem_map.1 hmem
    have hh : e.hash = hashF k := congrArg Prod.fst he
    have hk : e.key = k := congrArg Prod.snd he
    exact habsent e hem ⟨hh, hk⟩
  · show m.sz + 1 = (allNodes (putFreshState hashF m k v)).length
    rw [hperm.length_eq, List.length_cons, hwf.sz_eq]

theorem get_putFreshState_self [DecidableEq K] (hashF : K → Nat) {m : HashMap K V}
    (hwf : WF m) (k : K) (v : V) :
    get hashF (putFreshState hashF m k v) k = some v := by
  have hlen := bucketIndex_lt_len hwf (hashF k)
  simp only [get, putFreshState, bucketAt]
  rw [getD_set_self _ _ hlen]
  simp [findInChain]

theorem get_putFreshState_ne [DecidableEq K] (hashF : K → Nat) {m : HashMap K V}
    (hwf : WF m) {k k2 : K} (hne : k2 ≠ k) (v : V) :
    get hashF (putFreshState hashF m k v) k2 = get hashF m k2 := by
  have hlen := bucketIndex_lt_len hwf (hashF k)
  simp only [get, putFreshState, bucketAt]
  by_cases hij : bucketIndex (hashF k) m.capacity = bucketIndex (hashF k2) m.capacity
  · rw [← hij, getD_set_self _ _ hlen]
    simp only [findInChain]
    rw [if_neg (fun hc => hne hc.2.symm)]
  · rw [getD_set_ne _ _ _ hij]

/-- Claim-level workhorse: `put` then `get` on the same key. -/
theorem get_put_self [DecidableEq K] (hashF : K → Nat) {m : HashMap K V}
    (hwf : WF m) (k : K) (v : V) :
    get hashF (put hashF m k v) k = some v := by
  rcases hcp : chainPut (hashF k) k v
      (bucketAt m (bucketIndex (hashF k) m.capacity)) with _ | c2
  · rw [put_eq_fresh hashF m k v hcp]
    by_cases hth : m.threshold < m.sz + 1
    · rw [if_pos hth, get_resize hashF (wf_putFreshState hashF hwf hcp) k]
      exact get_putFreshState_self hashF hwf k v
    · rw [if_neg hth]
      exact get_putFreshState_self hashF hwf k v
  · rw [put_eq_found hashF m k v hcp]
    have hlen := bucketIndex_lt_len hwf (hashF k)
    simp only [get, bucketAt]
    rw [getD_set_self _ _ hlen]
    exact chainPut_some_find hcp

/-- `put` on one key does not change what `get` sees on any other key. -/
theorem get_put_ne [DecidableEq K] (hashF : K → Nat) {m : HashMap K V}
    (hwf : WF m) {k k2 : K} (hne : k2 ≠ k) (v : V) :
    get hashF (put hashF m k v) k2 = get hashF m k2 := by
  rcases hcp : chainPut (hashF k) k v
      (bucketAt m (bucketIndex (hashF k) m.capacity)) with _ | c2
  · rw [put_eq_fresh hashF m k v hcp]
    by_cases hth : m.threshold < m.sz + 1
    · rw [if_pos hth, get_resize hashF (wf_putFreshState hashF hwf hcp) k2]
      exact get_putFreshState_ne hashF hwf hne v
    · rw [if_neg hth]
      exact get_putFreshState_ne hashF hwf hne v
  · rw [put_eq_found hashF m k v hcp]
    simp only [get, bucketAt]
    by_cases hij : bucketIndex (hashF k) m.capacity = bucketIndex (hashF k2) m.capacity
    · rw [← hij, getD_set_self _ _ (bucketIndex_lt_len hwf (hashF k))]
      exact chainPut_some_find_ne hne hcp
    · rw [getD_set_ne _ _ _ hij]

theorem wf_put [DecidableEq K] (hashF : K → Nat) {m : HashMap K V} (hwf : WF m)
    (k : K) (v : V) : WF (put hashF m k v) := by
  rcases hcp : chainPut (hashF k) k v
      (bucketAt m (bucketIndex (hashF k) m.capacity)) with _ | c2
  · rw [put_eq_fresh hashF m k v hcp]
    by_cases hth : m.threshold < m.sz + 1
    · rw [if_pos hth]
      exact wf_resize (wf_putFreshState hashF hwf hcp)
    · rw [if_neg hth]
      exact wf_putFreshState hashF hwf hcp
  · rw [put_eq_found hashF m k v hcp]
    have hlen := bucketIndex_lt_len hwf (hashF k)
    have hmapeq : ((m.buckets.set (bucketIndex (hashF k) m.capacity) c2).flatten).map
        nsig = (m.buckets.flatten).map nsig := by
      rw [flatten_set_decomp m.buckets _ hlen c2, flatten_decomp m.buckets _ hlen]
      simp only [List.map_append]
      rw [chainPut_some_map_nsig hcp]
      rfl
    refine ⟨hwf.cap_pow, hwf.lf_eq, ?_, hwf.thr_eq, ?_, ?_, ?_⟩
    · show (m.buckets.set (bucketIndex (hashF k) m.capacity) c2).length = m.capacity
      rw [List.length_set]
      exact hwf.len_eq
    · intro j f hf
      simp only [bucketAt] at hf
      by_cases hij : bucketIndex (hashF k) m.capacity = j
      · subst hij
        rw [getD_set_self _ _ hlen] at hf
        have hsig : nsig f ∈ (bucketAt m (bucketIndex (hashF k) m.capacity)).map nsig := by
          rw [← chainPut_some_map_nsig hcp]
          exact List.mem_map_of_mem nsig hf
        obtain ⟨g, hg, hgf⟩ := List.mem_map.1 hsig
        have hgh : g.hash = f.hash := congrArg Prod.fst hgf
        rw [← hgh]
        exact hwf.placed _ g hg
      · rw [getD_set_ne _ _ _ hij] at hf
        exact hwf.placed j f hf
    · show ((m.buckets.set (bucketIndex (hashF k) m.capacity) c2).flatten.map nsig).Nodup
      rw [hmapeq]
      exact hwf.sig_nodup
    · show m.sz = (m.buckets.set (bucketIndex (hashF k) m.capacity) c2).flatten.length
      have hl : (m.buckets.set (bucketIndex (hashF k) m.capacity) c2).flatten.length =
          m.buckets.flatten.length := by
        rw [← List.length_map _ nsig, hmapeq, List.length_map]
      rw [hl]
      exact hwf.sz_eq

theorem chainPut_isSome_of_get [DecidableEq K] (hashF : K → Nat) {m : HashMap K V}
    {k : K} {w : V} (hg : get hashF m k = some w) (v : V) :
    ∃ c2, chainPut (hashF k) k v
      (bucketAt m (bucketIndex (hashF k) m.capacity)) = some c2 := by
  rcases hcp : chainPut (hashF k) k v
      (bucketAt m (bucketIndex (hashF k) m.capacity)) with _ | c2
  · exfalso
    rw [get, chainPut_eq_none_iff.1 hcp] at hg
    exact Option.noConfusion hg
  · exact ⟨c2, rfl⟩

/-- An overwriting `put` (key already present) leaves `sz`, `capacity`,
`threshold` and `load_factor` untouched. -/
theorem put_present_frame [DecidableEq K] (hashF : K → Nat) {m : HashMap K V}
    {k : K} {w : V} (hg : get hashF m k = some w) (v : V) :
    (put hashF m k v).sz = m.sz ∧ (put hashF m k v).capacity = m.capacity ∧
    (put hashF m k v).threshold = m.threshold ∧
    (put hashF m k v).load_factor = m.load_factor := by
  obtain ⟨c2, hcp⟩ := chainPut_isSome_of_get hashF hg v
  rw [put_eq_found hashF m k v hcp]
  exact ⟨rfl, rfl, rfl, rfl⟩

theorem put_absent_eq [DecidableEq K] (hashF : K → Nat) {m : HashMap K V} {k : K}
    (hg : get hashF m k = none) (v : V) :
    put hashF m k v =
      if m.threshold < m.sz + 1 then resize (putFreshState hashF m k v)
      else putFreshState hashF m k v :=
  put_eq_fresh hashF m k v (chainPut_eq_none_iff.2 (by rw [get] at hg; exact hg))

theorem put_absent_sz [DecidableEq K] (hashF : K → Nat) {m : HashMap K V} {k : K}
    (hg : get hashF m k = none) (v : V) :
    (put hashF m k v).sz = m.sz + 1 := by
  rw [put_absent_eq hashF hg v]
  by_cases hth : m.threshold < m.sz + 1
  · rw [if_pos hth]
    rfl
  · rw [if_neg hth]
    rfl

theorem put_absent_no_resize [DecidableEq K] (hashF : K → Nat) {m : HashMap K V}
    {k : K} (hg : get hashF m k = none) (v : V) (hth : m.sz + 1 ≤ m.threshold) :
    (put hashF m k v).capacity = m.capacity ∧
    (put hashF m k v).threshold = m.threshold := by
  rw [put_absent_eq hashF hg v, if_neg (Nat.not_lt.2 hth)]
  exact ⟨rfl, rfl⟩

theorem put_absent_resize [DecidableEq K] (hashF : K → Nat) {m : HashMap K V}
    {k : K} (hg : get hashF m k = none) (v : V) (hth : m.threshold < m.sz + 1) :
    (put hashF m k v).capacity = m.capacity * 2 ∧
    (put hashF m k v).threshold = thresholdOf (m.capacity * 2) := by
  rw [put_absent_eq hashF hg v, if_pos hth]
  exact ⟨rfl, rfl⟩


/-! ## `remove` -/

theorem remove_eq_found [DecidableEq K] (hashF : K → Nat) (m : HashMap K V) (k : K)
    {c2 : List (Node K V)}
    (hcr : chainRemove (hashF k) k
      (bucketAt m (bucketIndex (hashF k) m.capacity)) = some c2) :
    remove hashF m k = (true,
      { m with
        buckets := m.buckets.set (bucketIndex (hashF k) m.capacity) c2
        sz := m.sz - 1 }) := by
  unfold remove
  rw [hcr]

theorem remove_eq_none [DecidableEq K] (hashF : K → Nat) (m : HashMap K V) (k : K)
    (hcr : chainRemove (hashF k) k
      (bucketAt m (bucketIndex (hashF k) m.capacity)) = none) :
    remove hashF m k = (false, m) := by
  unfold remove
  rw [hcr]

/-- `remove` on an absent key is the identity and reports `false`. -/
theorem remove_absent [DecidableEq K] (hashF : K → Nat) {m : HashMap K V} {k : K}
    (hg : get hashF m k = none) :
    remove hashF m k = (false, m) :=
  remove_eq_none hashF m k (chainRemove_eq_none_iff.2 (by rw [get] at hg; exact hg))

/-- No `remove` call, hit or miss, touches `capacity`, `threshold` or
`load_factor` (HashMap.h lines 220-239 never write them). -/
theorem remove_frame [DecidableEq K] (hashF : K → Nat) (m : HashMap K V) (k : K) :
    (remove hashF m k).2.capacity = m.capacity ∧
    (remove hashF m k).2.threshold = m.threshold ∧
    (remove hashF m k).2.load_factor = m.load_factor := by
  rcases hcr : chainRemove (hashF k) k
      (bucketAt m (bucketIndex (hashF k) m.capacity)) with _ | c2
  · rw [remove_eq_none hashF m k hcr]
    exact ⟨rfl, rfl, rfl⟩
  · rw [remove_eq_found hashF m k hcr]
    exact ⟨rfl, rfl, rfl⟩

/-- `remove` on a present key: returns `true`, the key is gone, and size
drops by exactly one. -/
theorem remove_present [DecidableEq K] (hashF : K → Nat) {m : HashMap K V}
    (hwf : WF m) {k : K} {w : V} (hg : get hashF m k = some w) :
    (remove hashF m k).1 = true ∧ get hashF (remove hashF m k).2 k = none ∧
    (remove hashF m k).2.sz + 1 = m.sz := by
  rcases hcr : chainRemove (hashF k) k
      (bucketAt m (bucketIndex (hashF k) m.capacity)) with _ | c2
  · exfalso
    rw [get, chainRemove_eq_none_iff.1 hcr] at hg
    exact Option.noConfusion hg
  · rw [remove_eq_found hashF m k hcr]
    refine ⟨rfl, ?_, ?_⟩
    · simp only [get, bucketAt]
      rw [getD_set_self _ _ (bucketIndex_lt_len hwf (hashF k))]
      exact chainRemove_some_find (bucketAt_nsig_nodup hwf _) hcr
    · have hlen1 : 1 ≤ (bucketAt m (bucketIndex (hashF k) m.capacity)).length := by
        rw [← chainRemove_some_length hcr]
        exact Nat.succ_le_succ (Nat.zero_le _)
      have hsz1 : 1 ≤ m.sz := by
        rw [hwf.sz_eq]
        exact le_trans hlen1 (bucketAt_sublist _).length_le
      show m.sz - 1 + 1 = m.sz
      exact Nat.sub_add_cancel hsz1

/-- `remove` on one key does not change what `get` sees on any other key. -/
theorem get_remove_ne [DecidableEq K] (hashF : K → Nat) {m : HashMap K V}
    (hwf : WF m) {k k2 : K} (hne : k2 ≠ k) :
    get hashF (remove hashF m k).2 k2 = get hashF m k2 := by
  rcases hcr : chainRemove (hashF k) k
      (bucketAt m (bucketIndex (hashF k) m.capacity)) with _ | c2
  · rw [remove_eq_none hashF m k hcr]
  · rw [remove_eq_found hashF m k hcr]
    simp only [get, bucketAt]
    by_cases hij : bucketIndex (hashF k) m.capacity = bucketIndex (hashF k2) m.capacity
    · rw [← hij, getD_set_self _ _ (bucketIndex_lt_len hwf (hashF k))]
      exact chainRemove_some_find_ne hne hcr
    · rw [getD_set_ne _ _ _ hij]

/-! ## `clear`, `reset`, construction -/

theorem clear_eq_of_sz_zero (m : HashMap K V) (h : m.sz = 0) : clear m = m := by
  rw [clear, if_pos h]

theorem clear_frame (m : HashMap K V) :
    (clear m).capacity = m.capacity ∧ (clear m).load_factor = m.load_factor ∧
    (clear m).threshold = m.threshold := by
  rw [clear]
  by_cases h : m.sz = 0
  · rw [if_pos h]
    exact ⟨rfl, rfl, rfl⟩
  · rw [if_neg h]
    exact ⟨rfl, rfl, rfl⟩

theorem clear_sz (m : HashMap K V) : (clear m).sz = 0 := by
  rw [clear]
  by_cases h : m.sz = 0
  · rw [if_pos h]
    exact h
  · rw [if_neg h]

theorem get_of_sz_zero [DecidableEq K] (hashF : K → Nat) {m : HashMap K V}
    (hwf : WF m) (h : m.sz = 0) (k : K) : get hashF m k = none := by
  rw [get_eq_none_iff hashF hwf]
  intro e hem _
  have hz : (allNodes m).length = 0 := by
    rw [← hwf.sz_eq]
    exact h
  rw [List.length_eq_zero.1 hz] at hem
  cases hem

theorem get_clear [DecidableEq K] (hashF : K → Nat) {m : HashMap K V}
    (hwf : WF m) (k : K) : get hashF (clear m) k = none := by
  by_cases h : m.sz = 0
  · rw [clear_eq_of_sz_zero m h]
    exact get_of_sz_zero hashF hwf h k
  · rw [clear, if_neg h]
    simp only [get, bucketAt]
    rw [getD_replicate_nil]
    rfl

theorem wf_mkHashMap (K V : Type) : WF (mkHashMap K V) := by
  refine ⟨⟨4, rfl⟩, rfl, List.length_replicate _ _, rfl, ?_, ?_, ?_⟩
  · intro j f hf
    simp only [mkHashMap, initMap, bucketAt] at hf
    rw [getD_replicate_nil] at hf
    cases hf
  · show ((allNodes (mkHashMap K V)).map nsig).Nodup
    rw [show allNodes (mkHashMap K V) = [] from flatten_replicate_nil 16]
    simp
  · show (0 : Nat) = (allNodes (mkHashMap K V)).length
    rw [show allNodes (mkHashMap K V) = [] from flatten_replicate_nil 16]
    rfl

theorem get_mkHashMap [DecidableEq K] (hashF : K → Nat) (k : K) :
    get hashF (mkHashMap K V) k = none := by
  simp only [get, mkHashMap, initMap, bucketAt]
  rw [getD_replicate_nil]
  rfl

theorem get_reset [DecidableEq K] (hashF : K → Nat) (m : HashMap K V) (k : K) :
    get hashF (reset m) k = none := by
  simp only [get, reset, initMap, bucketAt]
  rw [getD_replicate_nil]
  rfl


/-! ## Runs of fresh inserts (the growth scenario) -/

theorem putAll_cons [DecidableEq K] (hashF : K → Nat) (m : HashMap K V)
    (kv : K × V) (l : List (K × V)) :
    putAll hashF m (kv :: l) = putAll hashF (put hashF m kv.1 kv.2) l := rfl

theorem putAll_append [DecidableEq K] (hashF : K → Nat) (m : HashMap K V)
    (l1 l2 : List (K × V)) :
    putAll hashF m (l1 ++ l2) = putAll hashF (putAll hashF m l1) l2 := by
  simp [putAll, List.foldl_append]

/-- Inserting a run of distinct, absent keys: the table stays well formed,
grows by exactly the run length, holds every inserted pair, and looks
unchanged on every key outside the run. -/
theorem putAll_fresh [DecidableEq K] (hashF : K → Nat) :
    ∀ (l : List (K × V)) (m : HashMap K V), WF m →
    (∀ kv ∈ l, get hashF m kv.1 = none) →
    (l.map Prod.fst).Nodup →
    WF (putAll hashF m l) ∧ (putAll hashF m l).sz = m.sz + l.length ∧
    (∀ kv ∈ l, get hashF (putAll hashF m l) kv.1 = some kv.2) ∧
    (∀ k2, (∀ kv ∈ l, kv.1 ≠ k2) → get hashF (putAll hashF m l) k2 = get hashF m k2)
  | [], m, hwf, _, _ => ⟨hwf, by simp [putAll], by simp, fun _ _ => rfl⟩
  | (k, v) :: t, m, hwf, habs, hnd => by
    rw [putAll_cons]
    have hwf1 : WF (put hashF m k v) := wf_put hashF hwf k v
    have hheadnone : get hashF m k = none := habs (k, v) (by simp)
    have hknot : ∀ kv ∈ t, kv.1 ≠ k := by
      intro kv hkv hc
      rw [List.map_cons, List.nodup_cons] at hnd
      have hm : kv.1 ∈ t.map Prod.fst := List.mem_map_of_mem Prod.fst hkv
      rw [hc] at hm
      exact hnd.1 hm
    have habs1 : ∀ kv ∈ t, get hashF (put hashF m k v) kv.1 = none := by
      intro kv hkv
      rw [get_put_ne hashF hwf (hknot kv hkv) v]
      exact habs kv (List.mem_cons_of_mem _ hkv)
    have hnd1 : (t.map Prod.fst).Nodup := by
      rw [List.map_cons, List.nodup_cons] at hnd
      exact hnd.2
    obtain ⟨ihwf, ihsz, ihget, ihframe⟩ :=
      putAll_fresh hashF t (put hashF m k v) hwf1 habs1 hnd1
    refine ⟨ihwf, ?_, ?_, ?_⟩
    · rw [ihsz, put_absent_sz hashF hheadnone v, List.length_cons]
      omega
    · intro kv hkv
      rcases List.mem_cons.1 hkv with rfl | hkv2
      · rw [ihframe k (fun kv2 hkv2 => hknot kv2 hkv2)]
        exact get_put_self hashF hwf k v
      · exact ihget kv hkv2
    · intro k2 hk2
      rw [ihframe k2 (fun kv hkv => hk2 kv (List.mem_cons_of_mem _ hkv))]
      exact get_put_ne hashF hwf (Ne.symm (hk2 (k, v) (by simp))) v

/-- As long as the run stays within the threshold, neither capacity nor
threshold moves. -/
theorem putAll_cap [DecidableEq K] (hashF : K → Nat) :
    ∀ (l : List (K × V)) (m : HashMap K V), WF m →
    (∀ kv ∈ l, get hashF m kv.1 = none) →
    (l.map Prod.fst).Nodup →
    m.sz + l.length ≤ m.threshold →
    (putAll hashF m l).capacity = m.capacity ∧
    (putAll hashF m l).threshold = m.threshold
  | [], _, _, _, _, _ => ⟨rfl, rfl⟩
  | (k, v) :: t, m, hwf, habs, hnd, hth => by
    rw [putAll_cons]
    have hheadnone : get hashF m k = none := habs (k, v) (by simp)
    have hknot : ∀ kv ∈ t, kv.1 ≠ k := by
      intro kv hkv hc
      rw [List.map_cons, List.nodup_cons] at hnd
      have hm : kv.1 ∈ t.map Prod.fst := List.mem_map_of_mem Prod.fst hkv
      rw [hc] at hm
      exact hnd.1 hm
    have habs1 : ∀ kv ∈ t, get hashF (put hashF m k v) kv.1 = none := by
      intro kv hkv
      rw [get_put_ne hashF hwf (hknot kv hkv) v]
      exact habs kv (List.mem_cons_of_mem _ hkv)
    have hnd1 : (t.map Prod.fst).Nodup := by
      rw [List.map_cons, List.nodup_cons] at hnd
      exact hnd.2
    have hth1 : m.sz + 1 ≤ m.threshold := by
      rw [List.length_cons] at hth
      omega
    obtain ⟨hcap, hthr⟩ := put_absent_no_resize hashF hheadnone v hth1
    have hth2 : (put hashF m k v).sz + t.length ≤ (put hashF m k v).threshold := by
      rw [put_absent_sz hashF hheadnone v, hthr]
      rw [List.length_cons] at hth
      omega
    obtain ⟨ihcap, ihthr⟩ :=
      putAll_cap hashF t (put hashF m k v) (wf_put hashF hwf k v) habs1 hnd1 hth2
    exact ⟨ihcap.trans hcap, ihthr.trans hthr⟩


/-! ## The claims -/

/-- C1: for every key `k` and value `v`, `put(k, v)` followed by `get(k)` on
the same table returns `v` wrapped as present (`some v`), regardless of the
table's prior contents — `WF` is the representation invariant every state
reachable through the public interface satisfies. -/
theorem put_then_get_returns_value [DecidableEq K] (hashF : K → Nat)
    (m : HashMap K V) (hwf : WF m) (k : K) (v : V) :
    get hashF (put hashF m k v) k = some v :=
  get_put_self hashF hwf k v

theorem put_then_get_returns_value_witness :
    WF (put id (mkHashMap Nat Nat) 7 70) ∧
    get id (put id (put id (mkHashMap Nat Nat) 7 70) 3 30) 3 = some 30 :=
  ⟨wf_put id (wf_mkHashMap Nat Nat) 7 70,
   put_then_get_returns_value id (put id (mkHashMap Nat Nat) 7 70)
     (wf_put id (wf_mkHashMap Nat Nat) 7 70) 3 30⟩

/-- C2: after `put(k, v1)` then `put(k, v2)`, `get(k)` returns `v2`, and the
second (overwriting) put leaves `sz`, `capacity` and `threshold` exactly as
they were after the first put — the found-branch of `put` returns before the
resize check (HashMap.h lines 196-200). -/
theorem overwrite_put_value_and_frame [DecidableEq K] (hashF : K → Nat)
    (m : HashMap K V) (hwf : WF m) (k : K) (v1 v2 : V) :
    get hashF (put hashF (put hashF m k v1) k v2) k = some v2 ∧
    (put hashF (put hashF m k v1) k v2).sz = (put hashF m k v1).sz ∧
    (put hashF (put hashF m k v1) k v2).capacity = (put hashF m k v1).capacity ∧
    (put hashF (put hashF m k v1) k v2).threshold = (put hashF m k v1).threshold := by
  have h1 : get hashF (put hashF m k v1) k = some v1 := get_put_self hashF hwf k v1
  obtain ⟨hsz, hcap, hthr, _⟩ := put_present_frame hashF h1 v2
  exact ⟨get_put_self hashF (wf_put hashF hwf k v1) k v2, hsz, hcap, hthr⟩

theorem overwrite_put_value_and_frame_witness :
    WF (mkHashMap Nat Nat) ∧
    (get id (put id (put id (mkHashMap Nat Nat) 5 1) 5 2) 5 = some 2 ∧
     (put id (put id (mkHashMap Nat Nat) 5 1) 5 2).sz =
       (put id (mkHashMap Nat Nat) 5 1).sz ∧
     (put id (put id (mkHashMap Nat Nat) 5 1) 5 2).capacity =
       (put id (mkHashMap Nat Nat) 5 1).capacity ∧
     (put id (put id (mkHashMap Nat Nat) 5 1) 5 2).threshold =
       (put id (mkHashMap Nat Nat) 5 1).threshold) :=
  ⟨wf_mkHashMap Nat Nat,
   overwrite_put_value_and_frame id (mkHashMap Nat Nat) (wf_mkHashMap Nat Nat) 5 1 2⟩

/-- C3: on every reachable table and every present key `k` (one whose `get`
returns some value), `remove(k)` returns `true`, a subsequent `get(k)` is
absent, and `sz` drops by exactly one. -/
theorem remove_present_key_spec [DecidableEq K] (hashF : K → Nat)
    (m : HashMap K V) (hwf : WF m) (k : K) (v : V)
    (hg : get hashF m k = some v) :
    (remove hashF m k).1 = true ∧ get hashF (remove hashF m k).2 k = none ∧
    (remove hashF m k).2.sz + 1 = m.sz :=
  remove_present hashF hwf hg

theorem remove_present_key_spec_witness :
    WF (put id (mkHashMap Nat Nat) 5 50) ∧
    get id (put id (mkHashMap Nat Nat) 5 50) 5 = some 50 ∧
    ((remove id (put id (mkHashMap Nat Nat) 5 50) 5).1 = true ∧
     get id (remove id (put id (mkHashMap Nat Nat) 5 50) 5).2 5 = none ∧
     (remove id (put id (mkHashMap Nat Nat) 5 50) 5).2.sz + 1 =
       (put id (mkHashMap Nat Nat) 5 50).sz) :=
  ⟨wf_put id (wf_mkHashMap Nat Nat) 5 50, by decide,
   remove_present_key_spec id (put id (mkHashMap Nat Nat) 5 50)
     (wf_put id (wf_mkHashMap Nat Nat) 5 50) 5 50 (by decide)⟩

/-- C4: `remove` on an absent key returns `false` and leaves the whole state
(in particular `sz`) unchanged; moreover no `remove` call — hit or miss —
ever changes `capacity` or `threshold` (the removal path never writes them,
so capacity can only ever grow, through `resize`). -/
theorem remove_absent_key_spec [DecidableEq K] (hashF : K → Nat)
    (m : HashMap K V) (k : K) :
    (get hashF m k = none →
      remove hashF m k = (false, m) ∧ (remove hashF m k).2.sz = m.sz) ∧
    (remove hashF m k).2.capacity = m.capacity ∧
    (remove hashF m k).2.threshold = m.threshold := by
  refine ⟨?_, (remove_frame hashF m k).1, (remove_frame hashF m k).2.1⟩
  intro hg
  rw [remove_absent hashF hg]
  exact ⟨rfl, rfl⟩

theorem remove_absent_key_spec_witness :
    get id (mkHashMap Nat Nat) 3 = none ∧
    ((remove id (mkHashMap Nat Nat) 3 = (false, mkHashMap Nat Nat) ∧
      (remove id (mkHashMap Nat Nat) 3).2.sz = (mkHashMap Nat Nat).sz) ∧
     (remove id (mkHashMap Nat Nat) 3).2.capacity = (mkHashMap Nat Nat).capacity ∧
     (remove id (mkHashMap Nat Nat) 3).2.threshold = (mkHashMap Nat Nat).threshold) :=
  ⟨by decide,
   (remove_absent_key_spec id (mkHashMap Nat Nat) 3).1 (by decide),
   (remove_absent_key_spec id (mkHashMap Nat Nat) 3).2.1,
   (remove_absent_key_spec id (mkHashMap Nat Nat) 3).2.2⟩

/-- C6: `clear()` empties the table (`sz = 0`, every `get` absent) while
`capacity`, `load_factor` and `threshold` stay exactly as before, and on an
already-empty table it is a no-op returning the state unchanged. -/
theorem clear_empties_preserving_shape [DecidableEq K] (hashF : K → Nat)
    (m : HashMap K V) (hwf : WF m) :
    (clear m).sz = 0 ∧ (∀ k, get hashF (clear m) k = none) ∧
    (clear m).capacity = m.capacity ∧ (clear m).load_factor = m.load_factor ∧
    (clear m).threshold = m.threshold ∧ (m.sz = 0 → clear m = m) :=
  ⟨clear_sz m, fun k => get_clear hashF hwf k, (clear_frame m).1,
   (clear_frame m).2.1, (clear_frame m).2.2, clear_eq_of_sz_zero m⟩

theorem clear_empties_preserving_shape_witness :
    WF (put id (mkHashMap Nat Nat) 4 44) ∧
    ((clear (put id (mkHashMap Nat Nat) 4 44)).sz = 0 ∧
     (∀ k, get id (clear (put id (mkHashMap Nat Nat) 4 44)) k = none) ∧
     (clear (put id (mkHashMap Nat Nat) 4 44)).capacity =
       (put id (mkHashMap Nat Nat) 4 44).capacity ∧
     (clear (put id (mkHashMap Nat Nat) 4 44)).load_factor =
       (put id (mkHashMap Nat Nat) 4 44).load_factor ∧
     (clear (put id (mkHashMap Nat Nat) 4 44)).threshold =
       (put id (mkHashMap Nat Nat) 4 44).threshold ∧
     ((put id (mkHashMap Nat Nat) 4 44).sz = 0 →
       clear (put id (mkHashMap Nat Nat) 4 44) = put id (mkHashMap Nat Nat) 4 44)) :=
  ⟨wf_put id (wf_mkHashMap Nat Nat) 4 44,
   clear_empties_preserving_shape id (put id (mkHashMap Nat Nat) 4 44)
     (wf_put id (wf_mkHashMap Nat Nat) 4 44)⟩

/-- C7: `reset()` returns every table — however much it grew, whatever it
holds — to the just-constructed default state: capacity 16, threshold 12,
size 0, and `get` absent for every key. -/
theorem reset_restores_default_state [DecidableEq K] (hashF : K → Nat)
    (m : HashMap K V) :
    (reset m).capacity = 16 ∧ (reset m).threshold = 12 ∧ (reset m).sz = 0 ∧
    ∀ k, get hashF (reset m) k = none :=
  ⟨rfl, rfl, rfl, fun k => get_reset hashF m k⟩

theorem goodShape_of_wf {m : HashMap K V} (hwf : WF m) : GoodShape m := by
  refine ⟨hwf.cap_pow, ?_⟩
  rw [hwf.thr_eq, hwf.lf_eq]
  exact thresholdOf_eq_floor m.capacity

/-- C8: after construction and after every public operation applied to a
reachable (`WF`) state, `capacity` is a power of two and `threshold` equals
`⌊capacity * load_factor⌋` (`get` does not mutate the state, so the final
conjunct covers it). -/
theorem shape_invariant_all_ops [DecidableEq K] (hashF : K → Nat) :
    GoodShape (mkHashMap K V) ∧
    (∀ m : HashMap K V, WF m → ∀ (k : K) (v : V), GoodShape (put hashF m k v)) ∧
    (∀ m : HashMap K V, WF m → ∀ k : K, GoodShape (remove hashF m k).2) ∧
    (∀ m : HashMap K V, WF m → GoodShape (clear m)) ∧
    (∀ m : HashMap K V, WF m → GoodShape (reset m)) ∧
    (∀ m : HashMap K V, WF m → GoodShape m) := by
  refine ⟨goodShape_of_wf (wf_mkHashMap K V), ?_, ?_, ?_, ?_,
    fun m hwf => goodShape_of_wf hwf⟩
  · intro m hwf k v
    exact goodShape_of_wf (wf_put hashF hwf k v)
  · intro m hwf k
    obtain ⟨hcap, hthr, hlf⟩ := remove_frame hashF m k
    refine ⟨?_, ?_⟩
    · rw [hcap]
      exact hwf.cap_pow
    · rw [hcap, hthr, hlf, hwf.thr_eq, hwf.lf_eq]
      exact thresholdOf_eq_floor m.capacity
  · intro m hwf
    obtain ⟨hcap, hlf, hthr⟩ := clear_frame m
    refine ⟨?_, ?_⟩
    · rw [hcap]
      exact hwf.cap_pow
    · rw [hcap, hthr, hlf, hwf.thr_eq, hwf.lf_eq]
      exact thresholdOf_eq_floor m.capacity
  · intro m hwf
    refine ⟨⟨4, rfl⟩, ?_⟩
    show ((thresholdOf 16 : Nat) : ℤ) = Int.floor (((16 : Nat) : ℚ) * m.load_factor)
    rw [hwf.lf_eq]
    exact thresholdOf_eq_floor 16

theorem shape_invariant_all_ops_witness :
    WF (mkHashMap Nat Nat) ∧ GoodShape (put id (mkHashMap Nat Nat) 2 20) :=
  ⟨wf_mkHashMap Nat Nat,
   (shape_invariant_all_ops id).2.1 (mkHashMap Nat Nat) (wf_mkHashMap Nat Nat) 2 20⟩

/-- C10: two distinct keys whose full hash values coincide (not merely their
masked bucket indices) are handled independently: both are retrievable with
their own values after both are inserted, and removing one reports success,
leaves it absent, and leaves the other untouched — lookups compare key
equality after the cached-hash comparison. -/
theorem equal_hash_distinct_keys_independent [DecidableEq K] (hashF : K → Nat)
    (m : HashMap K V) (hwf : WF m) (k1 k2 : K) (v1 v2 : V)
    (_hhash : hashF k1 = hashF k2) (hne : k1 ≠ k2) :
    get hashF (put hashF (put hashF m k1 v1) k2 v2) k1 = some v1 ∧
    get hashF (put hashF (put hashF m k1 v1) k2 v2) k2 = some v2 ∧
    (remove hashF (put hashF (put hashF m k1 v1) k2 v2) k1).1 = true ∧
    get hashF (remove hashF (put hashF (put hashF m k1 v1) k2 v2) k1).2 k1 = none ∧
    get hashF (remove hashF (put hashF (put hashF m k1 v1) k2 v2) k1).2 k2 = some v2 := by
  have hwf1 := wf_put hashF hwf k1 v1
  have hwf2 := wf_put hashF hwf1 k2 v2
  have hg1 : get hashF (put hashF (put hashF m k1 v1) k2 v2) k1 = some v1 := by
    rw [get_put_ne hashF hwf1 hne v2]
    exact get_put_self hashF hwf k1 v1
  have hg2 : get hashF (put hashF (put hashF m k1 v1) k2 v2) k2 = some v2 :=
    get_put_self hashF hwf1 k2 v2
  obtain ⟨hr1, hr2, _⟩ := remove_present hashF hwf2 hg1
  refine ⟨hg1, hg2, hr1, hr2, ?_⟩
  rw [get_remove_ne hashF hwf2 (Ne.symm hne)]
  exact hg2

theorem equal_hash_distinct_keys_independent_witness :
    WF (mkHashMap Nat Nat) ∧ (fun _ : Nat => 0) 1 = (fun _ : Nat => 0) 2 ∧
    (1 : Nat) ≠ 2 ∧
    (get (fun _ => 0) (put (fun _ => 0) (put (fun _ => 0) (mkHashMap Nat Nat) 1 10) 2 20) 1 =
       some 10 ∧
     get (fun _ => 0) (put (fun _ => 0) (put (fun _ => 0) (mkHashMap Nat Nat) 1 10) 2 20) 2 =
       some 20 ∧
     (remove (fun _ => 0)
       (put (fun _ => 0) (put (fun _ => 0) (mkHashMap Nat Nat) 1 10) 2 20) 1).1 = true ∧
     get (fun _ => 0) (remove (fun _ => 0)
       (put (fun _ => 0) (put (fun _ => 0) (mkHashMap Nat Nat) 1 10) 2 20) 1).2 1 = none ∧
     get (fun _ => 0) (remove (fun _ => 0)
       (put (fun _ => 0) (put (fun _ => 0) (mkHashMap Nat Nat) 1 10) 2 20) 1).2 2 =
       some 20) :=
  ⟨wf_mkHashMap Nat Nat, rfl, by decide,
   equal_hash_distinct_keys_independent (fun _ => 0) (mkHashMap Nat Nat)
     (wf_mkHashMap Nat Nat) 1 2 10 20 rfl (by decide)⟩


/-- C5: from the default table (capacity 16, threshold 12), a run of 13
distinct-key `put`s performs exactly one resize — capacity ends at 32 (one
doubling) with threshold 24 — and every one of the 13 pairs is still
retrievable afterwards. -/
theorem growth_thirteen_distinct_inserts [DecidableEq K] (hashF : K → Nat)
    (l : List (K × V)) (hlen : l.length = 13) (hnd : (l.map Prod.fst).Nodup) :
    (putAll hashF (mkHashMap K V) l).capacity = 32 ∧
    (putAll hashF (mkHashMap K V) l).threshold = 24 ∧
    ∀ kv ∈ l, get hashF (putAll hashF (mkHashMap K V) l) kv.1 = some kv.2 := by
  have hsplit : l = l.take 12 ++ l.drop 12 := (List.take_append_drop 12 l).symm
  have hlen12 : (l.take 12).length = 12 := by
    rw [List.length_take, hlen]
    decide
  have hlend : (l.drop 12).length = 1 := by
    rw [List.length_drop, hlen]
  obtain ⟨kv13, hd⟩ := List.length_eq_one.1 hlend
  have hmap : l.map Prod.fst = (l.take 12).map Prod.fst ++ (l.drop 12).map Prod.fst := by
    rw [← List.map_append, List.take_append_drop]
  rw [hmap] at hnd
  obtain ⟨hnd1, hnd2, hdisj⟩ := List.nodup_append.1 hnd
  have habs0 : ∀ kv ∈ l.take 12, get hashF (mkHashMap K V) kv.1 = none :=
    fun kv _ => get_mkHashMap hashF kv.1
  obtain ⟨hwf12, hsz12, hget12, hframe12⟩ :=
    putAll_fresh hashF (l.take 12) (mkHashMap K V) (wf_mkHashMap K V) habs0 hnd1
  obtain ⟨hcap12, hthr12⟩ :=
    putAll_cap hashF (l.take 12) (mkHashMap K V) (wf_mkHashMap K V) habs0 hnd1
      (by rw [hlen12]; show (0 : Nat) + 12 ≤ 12; omega)
  have hsz12n : (putAll hashF (mkHashMap K V) (l.take 12)).sz = 12 := by
    rw [hsz12, hlen12]
    rfl
  have hmem13 : kv13 ∈ l.drop 12 := by
    rw [hd]
    simp
  have hne13 : ∀ kv ∈ l.take 12, kv.1 ≠ kv13.1 := by
    intro kv hkv hc
    refine hdisj (List.mem_map_of_mem Prod.fst hkv) ?_
    rw [hc]
    exact List.mem_map_of_mem Prod.fst hmem13
  have habs13 : get hashF (putAll hashF (mkHashMap K V) (l.take 12)) kv13.1 = none := by
    rw [hframe12 kv13.1 hne13]
    exact get_mkHashMap hashF kv13.1
  have hfin : putAll hashF (mkHashMap K V) l =
      put hashF (putAll hashF (mkHashMap K V) (l.take 12)) kv13.1 kv13.2 := by
    conv_lhs => rw [hsplit]
    rw [putAll_append, hd]
    rfl
  have hresize := put_absent_resize hashF habs13 kv13.2
    (by rw [hsz12n, hthr12]; show (mkHashMap K V).threshold < 13; exact Nat.lt_succ_self 12)
  refine ⟨?_, ?_, ?_⟩
  · rw [hfin, hresize.1, hcap12]
    rfl
  · have hc : (mkHashMap K V).capacity = 16 := rfl
    rw [hfin, hresize.2, hcap12, hc]
    norm_num [thresholdOf]
  · intro kv hkv
    have hcases : kv ∈ l.take 12 ∨ kv ∈ l.drop 12 := by
      rw [← List.mem_append, List.take_append_drop]
      exact hkv
    rcases hcases with hkv1 | hkv1
    · rw [hfin, get_put_ne hashF hwf12 (hne13 kv hkv1) kv13.2]
      exact hget12 kv hkv1
    · rw [hd] at hkv1
      rw [List.mem_singleton.1 hkv1, hfin]
      exact get_put_self hashF hwf12 kv13.1 kv13.2

theorem growth_thirteen_distinct_inserts_witness :
    ((List.range 13).map (fun n => (n, 10 * n))).length = 13 ∧
    (((List.range 13).map (fun n => (n, 10 * n))).map Prod.fst).Nodup ∧
    ((putAll id (mkHashMap Nat Nat) ((List.range 13).map (fun n => (n, 10 * n)))).capacity =
       32 ∧
     (putAll id (mkHashMap Nat Nat) ((List.range 13).map (fun n => (n, 10 * n)))).threshold =
       24 ∧
     ∀ kv ∈ (List.range 13).map (fun n => (n, 10 * n)),
       get id (putAll id (mkHashMap Nat Nat) ((List.range 13).map (fun n => (n, 10 * n))))
         kv.1 = some kv.2) :=
  ⟨by decide, by decide,
   growth_thirteen_distinct_inserts id ((List.range 13).map (fun n => (n, 10 * n)))
     (by decide) (by decide)⟩

/-- C9 (refuted on the code): if the bucket-array allocation inside
`init(old_cap * 2)` fails during `resize`, the table is left with `capacity`
doubled, `sz` zeroed and `threshold` recomputed while `buckets` still is the
old 16-slot array holding all 13 entries — a state that is neither the
completed resize nor the prior state, and that violates the representation
invariant (`sz = 0` against 13 stored nodes, 16 slots against capacity 32).
The spec's atomicity requirement does not hold of the code. -/
theorem resize_alloc_failure_corrupts :
    (resizeAllocFail preResizeExample).sz = 0 ∧
    (allNodes (resizeAllocFail preResizeExample)).length = 13 ∧
    (resizeAllocFail preResizeExample).capacity = 32 ∧
    (resizeAllocFail preResizeExample).buckets.length = 16 ∧
    resizeAllocFail preResizeExample ≠ preResizeExample ∧
    resizeAllocFail preResizeExample ≠ resize preResizeExample ∧
    ¬ WF (resizeAllocFail preResizeExample) := by
  refine ⟨rfl, by decide, by decide, by decide, ?_, ?_, ?_⟩
  · intro h
    exact absurd (congrArg HashMap.sz h) (by decide)
  · intro h
    exact absurd (congrArg HashMap.sz h) (by decide)
  · intro hw
    exact absurd hw.sz_eq (by decide)

end HashMapVerify
